import Mathlib

/-!
Shallow embedding of the georank street-ranking engine.

Sources embedded:
- src/score.py : AMENITY_WEIGHTS, NOISE_WEIGHTS, calculate_street_score
  (the simplified single-aggregate TOPSIS scorer) and calculate_noise_level.
- src/app.py : the /streets event_stream orchestrator (count event, per-street
  progress events computed with int() truncation, final stable descending sort).

Numerics are modelled exactly: Python floats become real numbers (for the
square roots of the TOPSIS scorer) or rationals (for the noise estimator and
the progress percentages), round(x, 2) becomes round-to-nearest of 100*x over
the exact field, and int() becomes truncation toward zero.  Python dicts become
association lists with unique keys, lookups returning the first binding.
A Python KeyError (raised by AMENITY_WEIGHTS[category] for a category unknown
to the catalog, because the default argument of dict.get is evaluated eagerly)
is modelled by an Option-valued result.
-/

namespace GeoRank

/-- Python d.get(k): first binding of key k in an association list
(Python dicts have unique keys, so first binding is the binding). -/
def dictGet {α : Type} : List (String × α) → String → Option α
  | [], _ => none
  | (k, v) :: rest, key => if k = key then some v else dictGet rest key

/-- An AmenityMap records, per category name, the number of discovered places
(the length of the list the Python code stores under that key).  Absent
categories are absent entries; an entry with count 0 models a key that is
present with an empty list. -/
abbrev AmenityMap := List (String × Nat)

/-- A weight vector: category name to importance weight. -/
abbrev WeightVector := List (String × ℚ)

/-- len(amenities.get(category, [])). -/
def getCount (a : AmenityMap) (c : String) : Nat :=
  (dictGet a c).getD 0

/-- AMENITY_WEIGHTS from score.py: the 13-category default catalog. -/
def AMENITY_WEIGHTS : WeightVector :=
  [("Hospital", 13), ("School", 12), ("College", 11), ("Shrine", 10),
   ("Junction", 9), ("Bus Stand", 8), ("Entertainment", 7), ("Restaurant", 6),
   ("Shops", 5), ("Park", 4), ("Gym", 3), ("Gas Station", 2), ("Bank", 1)]

/-- NOISE_WEIGHTS from score.py (exact rationals for the float literals). -/
def NOISE_WEIGHTS : List (String × ℚ) :=
  [("Transports", 3), ("Shops", 2), ("Entertainment", 5/2),
   ("Restaurants", 3/2), ("Shrines", 1/2), ("Parks", 3/10)]

/-- Python round(x, 2) on an exact rational value. -/
def round2q (q : ℚ) : ℚ := ((round (q * 100) : ℤ) : ℚ) / 100

/-- Python round(x, 2) on an exact real value. -/
noncomputable def round2R (x : ℝ) : ℝ := ((round (x * 100) : ℤ) : ℝ) / 100

/-- Python int() applied to an exact rational: truncation toward zero. -/
def pyInt (q : ℚ) : ℤ := if 0 ≤ q then Int.floor q else -Int.floor (-q)

/-- np.max of an array, with the (never used on the paths below) value 0 for
an empty array. -/
noncomputable def listMax : List ℝ → ℝ
  | [] => 0
  | [x] => x
  | x :: y :: r => max x (listMax (y :: r))

/-- np.min of an array, with the (never used on the paths below) value 0 for
an empty array. -/
noncomputable def listMin : List ℝ → ℝ
  | [] => 0
  | [x] => x
  | x :: y :: r => min x (listMin (y :: r))

/-- np.sum(l ** 2). -/
noncomputable def sqSum (l : List ℝ) : ℝ := (l.map fun x => x ^ 2).sum

/-- np.sqrt(np.sum((l - c) ** 2)): Euclidean distance of a vector to the
constant vector c. -/
noncomputable def distTo (l : List ℝ) (c : ℝ) : ℝ :=
  Real.sqrt (sqSum (l.map fun x => x - c))

/-- weights_dict = custom_weights if custom_weights else AMENITY_WEIGHTS
(Python truthiness: both None and an empty dict select the defaults). -/
def effWeights : Option WeightVector → WeightVector
  | none => AMENITY_WEIGHTS
  | some w => if w.isEmpty then AMENITY_WEIGHTS else w

/-- The loop of calculate_street_score over the keys of weights_dict, building
the (value, weight) pairs.  For each category the code evaluates
AMENITY_WEIGHTS[category] eagerly as the default argument of dict.get, so a
category unknown to the default catalog raises KeyError: modelled as none. -/
def buildPairsAux (a : AmenityMap) (wd : WeightVector) :
    List (String × ℚ) → Option (List (ℚ × ℚ))
  | [] => some []
  | (c, _) :: rest =>
    match dictGet AMENITY_WEIGHTS c with
    | none => none
    | some d =>
      match buildPairsAux a wd rest with
      | none => none
      | some ps => some (((getCount a c : ℚ), (dictGet wd c).getD d) :: ps)

/-- criteria_values and weights of calculate_street_score, as pairs in the
iteration order of weights_dict. -/
def buildPairs (a : AmenityMap) (wd : WeightVector) : Option (List (ℚ × ℚ)) :=
  buildPairsAux a wd wd

/-- norm_denominator = np.sqrt(np.sum(criteria_values ** 2)). -/
noncomputable def normDen (ps : List (ℚ × ℚ)) : ℝ :=
  Real.sqrt (sqSum (ps.map fun p => ((p.1 : ℝ))))

/-- weighted_normalized_values = criteria_values / norm * weights. -/
noncomputable def wnOf (ps : List (ℚ × ℚ)) : List ℝ :=
  ps.map fun p => (p.1 : ℝ) / normDen ps * (p.2 : ℝ)

/-- topsis_score: distance_to_worst / (distance_to_best + distance_to_worst),
guarded to 0 when the distance sum is zero. -/
noncomputable def topsisRatio (ps : List (ℚ × ℚ)) : ℝ :=
  if distTo (wnOf ps) (listMax (wnOf ps)) + distTo (wnOf ps) (listMin (wnOf ps)) = 0
  then 0
  else distTo (wnOf ps) (listMin (wnOf ps)) /
    (distTo (wnOf ps) (listMax (wnOf ps)) + distTo (wnOf ps) (listMin (wnOf ps)))

/-- The numeric part of calculate_street_score after the vectors are built:
early 0.0 return when the value norm is zero, else round(ratio * 10, 2). -/
noncomputable def scoreFromPairs (ps : List (ℚ × ℚ)) : ℝ :=
  if normDen ps = 0 then 0 else round2R (topsisRatio ps * 10)

/-- calculate_street_score from score.py.  none models the KeyError raised for
a weight-vector category missing from the default catalog. -/
noncomputable def calculate_street_score (a : AmenityMap)
    (custom : Option WeightVector) : Option ℝ :=
  (buildPairs a (effWeights custom)).map scoreFromPairs

/-- NOISE_WEIGHTS.get(category, 1.0). -/
def noiseWeightOf (c : String) : ℚ := (dictGet NOISE_WEIGHTS c).getD 1

/-- total_noise: sum of noise_weight * count over the entries of the map. -/
def total_noise (a : AmenityMap) : ℚ :=
  (a.map fun p => noiseWeightOf p.1 * (p.2 : ℚ)).sum

/-- max_noise = sum(NOISE_WEIGHTS.values()) * 10. -/
def max_noise : ℚ := (NOISE_WEIGHTS.map Prod.snd).sum * 10

/-- noise_score = round(total_noise / max_noise * 10, 2). -/
def noise_score (a : AmenityMap) : ℚ := round2q (total_noise a / max_noise * 10)

/-- calculate_noise_level from score.py: the label branches. -/
def calculate_noise_level (a : AmenityMap) : String :=
  if 7 ≤ noise_score a then "High"
  else if 4 ≤ noise_score a then "Medium"
  else "Low"

/-- A street candidate: (street_name, s_lat, s_lng) as produced by the merge
step, coordinates as exact rationals. -/
structure Street where
  name : String
  lat : ℚ
  lng : ℚ
deriving DecidableEq

/-- One entry of the final scored list: (street_name, s_lat, s_lng, score,
noise, amenities). -/
structure Scored where
  name : String
  lat : ℚ
  lng : ℚ
  score : ℝ
  noise : String
  amenities : AmenityMap

/-- One server-sent event of the /streets stream.  The empty-input case emits
a single event carrying both a progress value and the (empty) street list. -/
inductive Event where
  | countEv : ℕ → Event
  | progressEv : ℤ → Event
  | streetsEv : List Scored → Event
  | progressStreetsEv : ℤ → List Scored → Event

/-- Python round(x, 6) used by the street-deduplication key. -/
def round6 (q : ℚ) : ℚ := ((round (q * 1000000) : ℤ) : ℚ) / 1000000

/-- Deduplication key of get_merged_streets_only:
(street_name, round(lat, 6), round(lng, 6)). -/
def dedupKey (s : Street) : String × ℚ × ℚ := (s.name, round6 s.lat, round6 s.lng)

/-- First-seen-order deduplication by dedupKey, as in get_merged_streets_only. -/
def dedupAux (seen : List (String × ℚ × ℚ)) : List Street → List Street
  | [] => []
  | s :: rest =>
    if dedupKey s ∈ seen then dedupAux seen rest
    else s :: dedupAux (dedupKey s :: seen) rest

/-- Deduplicate a candidate street list, preserving first-seen order. -/
def dedup (l : List Street) : List Street := dedupAux [] l

/-- Stable descending insertion by key: x is placed before the first element
whose key is not larger, so earlier-processed elements win ties.  This is the
behavior of Python list.sort(key=..., reverse=True). -/
def insertDesc {α β : Type} [LinearOrder β] (key : α → β) (x : α) :
    List α → List α
  | [] => [x]
  | y :: ys => if key x < key y then y :: insertDesc key x ys else x :: y :: ys

/-- Stable descending sort by key (Python list.sort(key=..., reverse=True)). -/
def sortDesc {α β : Type} [LinearOrder β] (key : α → β) (l : List α) : List α :=
  l.foldr (insertDesc key) []

/-- The tuple appended to scored_streets for one street.  The KeyError path of
the scorer (impossible when every key of the effective weight vector is in the
default catalog) is totalized with 0. -/
noncomputable def scoredOf (w : WeightVector) (lookup : Street → AmenityMap)
    (s : Street) : Scored :=
  ⟨s.name, s.lat, s.lng, (calculate_street_score (lookup s) (some w)).getD 0,
   calculate_noise_level (lookup s), lookup s⟩

/-- scored_streets in processing order. -/
noncomputable def scoredList (streets : List Street)
    (lookup : Street → AmenityMap) (w : WeightVector) : List Scored :=
  streets.map (scoredOf w lookup)

/-- scored_streets.sort(key=lambda x: x[3], reverse=True): the final ranked
list emitted in the last event. -/
noncomputable def rankedList (streets : List Street)
    (lookup : Street → AmenityMap) (w : WeightVector) : List Scored :=
  sortDesc Scored.score (scoredList streets lookup w)

/-- progress = int(((idx + 1) / total_streets) * 100). -/
def progressOf (idx total : ℕ) : ℤ := pyInt (((idx : ℚ) + 1) / (total : ℚ) * 100)

/-- event_stream of the /streets endpoint in app.py: the ordered sequence of
emitted events.  Weights come from the request (an empty dict falls back to
the default catalog inside the scorer). -/
noncomputable def event_stream (streets : List Street)
    (lookup : Street → AmenityMap) (w : WeightVector) : List Event :=
  if streets.length = 0 then [Event.progressStreetsEv 100 []]
  else Event.countEv streets.length ::
    ((List.range streets.length).map fun i =>
      Event.progressEv (progressOf i streets.length)) ++
    [Event.streetsEv (rankedList streets lookup w)]

/-- The numeric progress values carried by the events, in emission order. -/
def progressValues (events : List Event) : List ℤ :=
  events.filterMap fun e =>
    match e with
    | Event.progressEv p => some p
    | Event.progressStreetsEv p _ => some p
    | _ => none

/-- Value vector as worded in the specification: per-category amenity counts
over the weight vector's keys, 0 for absent categories. -/
noncomputable def specValues (a : AmenityMap) (wd : WeightVector) : List ℝ :=
  wd.map fun p => (getCount a p.1 : ℝ)

/-- Weighted-normalized vector as worded in the specification: values divided
by the Euclidean norm of the value vector, then weighted component-wise by the
weight vector's own values. -/
noncomputable def specWn (a : AmenityMap) (wd : WeightVector) : List ℝ :=
  List.zipWith (fun v w => v / Real.sqrt (sqSum (specValues a wd)) * w)
    (specValues a wd) (wd.map fun p => (p.2 : ℝ))

/-- TOPSIS ratio as worded in the specification: Euclidean distance to the
scalar ideal-worst (the min) over the sum of the distances to ideal-best (the
max) and ideal-worst, with a zero distance sum yielding 0. -/
noncomputable def specRatioVal (a : AmenityMap) (wd : WeightVector) : ℝ :=
  if distTo (specWn a wd) (listMax (specWn a wd)) +
      distTo (specWn a wd) (listMin (specWn a wd)) = 0 then 0
  else distTo (specWn a wd) (listMin (specWn a wd)) /
    (distTo (specWn a wd) (listMax (specWn a wd)) +
     distTo (specWn a wd) (listMin (specWn a wd)))

/-- Final score as worded in the specification: round(10 * ratio, 2). -/
noncomputable def specStreetScore (a : AmenityMap) (wd : WeightVector) : ℝ :=
  round2R (10 * specRatioVal a wd)

theorem dictGet_nodup {α : Type} {wd : List (String × α)} {c : String} {v : α}
    (hnd : (wd.map Prod.fst).Nodup) (hmem : (c, v) ∈ wd) :
    dictGet wd c = some v := by
  induction wd with
  | nil => cases hmem
  | cons p rest ih =>
    obtain ⟨k, w⟩ := p
    simp only [List.map_cons, List.nodup_cons] at hnd
    rcases List.mem_cons.mp hmem with h | h
    · rw [Prod.ext_iff] at h
      obtain ⟨h1, h2⟩ := h
      subst h1; subst h2
      simp [dictGet]
    · have hk : k ≠ c := by
        rintro rfl
        exact hnd.1 (List.mem_map.mpr ⟨(k, v), h, rfl⟩)
      simp [dictGet, hk, ih hnd.2 h]

theorem buildPairsAux_eq (a : AmenityMap) (wd : WeightVector)
    (hnd : (wd.map Prod.fst).Nodup) (l : List (String × ℚ))
    (hsub : ∀ p ∈ l, p ∈ wd)
    (hcat : ∀ p ∈ l, (dictGet AMENITY_WEIGHTS p.1).isSome = true) :
    buildPairsAux a wd l = some (l.map fun p => ((getCount a p.1 : ℚ), p.2)) := by
  induction l with
  | nil => rfl
  | cons p rest ih =>
    obtain ⟨c, w⟩ := p
    have hc := hcat (c, w) (List.mem_cons_self _ _)
    obtain ⟨d, hd⟩ := Option.isSome_iff_exists.mp hc
    have hrest := ih (fun q hq => hsub q (List.mem_cons_of_mem _ hq))
      (fun q hq => hcat q (List.mem_cons_of_mem _ hq))
    have hget : dictGet wd c = some w :=
      dictGet_nodup hnd (hsub (c, w) (List.mem_cons_self _ _))
    simp [buildPairsAux, hd, hrest, hget]

theorem buildPairs_eq (a : AmenityMap) (wd : WeightVector)
    (hnd : (wd.map Prod.fst).Nodup)
    (hcat : ∀ p ∈ wd, (dictGet AMENITY_WEIGHTS p.1).isSome = true) :
    buildPairs a wd = some (wd.map fun p => ((getCount a p.1 : ℚ), p.2)) :=
  buildPairsAux_eq a wd hnd wd (fun _ hp => hp) hcat

theorem buildPairsAux_some (a : AmenityMap) (wd : WeightVector)
    (l : List (String × ℚ))
    (hcat : ∀ p ∈ l, (dictGet AMENITY_WEIGHTS p.1).isSome = true) :
    ∃ ps, buildPairsAux a wd l = some ps ∧
      ps.map Prod.fst = l.map fun p => (getCount a p.1 : ℚ) := by
  induction l with
  | nil => exact ⟨[], rfl, rfl⟩
  | cons p rest ih =>
    obtain ⟨c, w⟩ := p
    obtain ⟨d, hd⟩ := Option.isSome_iff_exists.mp (hcat (c, w) (List.mem_cons_self _ _))
    obtain ⟨ps, hps, hmap⟩ := ih (fun q hq => hcat q (List.mem_cons_of_mem _ hq))
    refine ⟨((getCount a c : ℚ), (dictGet wd c).getD d) :: ps, ?_, ?_⟩
    · simp [buildPairsAux, hd, hps]
    · simp [hmap]

theorem zipWith_map_self {α β γ δ : Type} (f : β → γ → δ) (g : α → β) (h : α → γ) :
    ∀ l : List α, List.zipWith f (l.map g) (l.map h) = l.map fun x => f (g x) (h x)
  | [] => rfl
  | x :: xs => by
    simp only [List.map_cons, List.zipWith_cons_cons, zipWith_map_self f g h xs]

theorem distTo_nonneg (l : List ℝ) (c : ℝ) : 0 ≤ distTo l c :=
  Real.sqrt_nonneg _

theorem round2R_bounds {x : ℝ} (h0 : 0 ≤ x) (h10 : x ≤ 10) :
    0 ≤ round2R x ∧ round2R x ≤ 10 := by
  have hl : (0 : ℤ) ≤ round (x * 100) := by
    have h := Int.floor_mono (show (0 : ℝ) + 1 / 2 ≤ x * 100 + 1 / 2 by linarith)
    rw [← round_eq, ← round_eq, round_zero] at h
    exact h
  have hu : round (x * 100) ≤ 1000 := by
    have h := Int.floor_mono (show x * 100 + 1 / 2 ≤ (1000 : ℝ) + 1 / 2 by linarith)
    rw [← round_eq, ← round_eq,
      show (1000 : ℝ) = ((1000 : ℤ) : ℝ) by norm_num, round_intCast] at h
    exact h
  constructor
  · rw [round2R]
    have : (0 : ℝ) ≤ ((round (x * 100) : ℤ) : ℝ) := by exact_mod_cast hl
    linarith
  · rw [round2R, div_le_iff₀ (by norm_num : (0 : ℝ) < 100)]
    have : ((round (x * 100) : ℤ) : ℝ) ≤ 1000 := by exact_mod_cast hu
    linarith

theorem specRatioVal_bounds (a : AmenityMap) (wd : WeightVector) :
    0 ≤ specRatioVal a wd ∧ specRatioVal a wd ≤ 1 := by
  rw [specRatioVal]
  split_ifs with h
  · exact ⟨le_refl 0, zero_le_one⟩
  · have h1 := distTo_nonneg (specWn a wd) (listMax (specWn a wd))
    have h2 := distTo_nonneg (specWn a wd) (listMin (specWn a wd))
    have hsum : 0 < distTo (specWn a wd) (listMax (specWn a wd)) +
        distTo (specWn a wd) (listMin (specWn a wd)) :=
      lt_of_le_of_ne (add_nonneg h1 h2) (Ne.symm h)
    exact ⟨div_nonneg h2 (le_of_lt hsum), by rw [div_le_one hsum]; linarith⟩

/-- C1: for every AmenityMap and weight vector with positive weights drawn
from the catalog's category universe and at least one nonzero category count,
calculate_street_score returns round(10 * dWorst / (dBest + dWorst), 2) per
the spec's simplified single-aggregate TOPSIS, and the result lies in
[0.0, 10.0]. -/
theorem score_contract (a : AmenityMap) (wopt : Option WeightVector)
    (hnd : ((effWeights wopt).map Prod.fst).Nodup)
    (hpos : ∀ p ∈ effWeights wopt, 0 < p.2)
    (hcat : ∀ p ∈ effWeights wopt, (dictGet AMENITY_WEIGHTS p.1).isSome = true)
    (hnz : ∃ p ∈ effWeights wopt, getCount a p.1 ≠ 0) :
    calculate_street_score a wopt = some (specStreetScore a (effWeights wopt)) ∧
    0 ≤ specStreetScore a (effWeights wopt) ∧
    specStreetScore a (effWeights wopt) ≤ 10 := by
  have hpairs := buildPairs_eq a (effWeights wopt) hnd hcat
  set wd := effWeights wopt with hwd
  set ps := wd.map fun p => ((getCount a p.1 : ℚ), p.2) with hps
  have hvals : ps.map (fun p => ((p.1 : ℝ))) = specValues a wd := by
    simp [hps, specValues, List.map_map, Function.comp_def]
  have hnden : normDen ps = Real.sqrt (sqSum (specValues a wd)) := by
    rw [normDen, hvals]
  obtain ⟨q, hq, hqnz⟩ := hnz
  have hmemsq : ((getCount a q.1 : ℝ)) ^ 2 ∈ (specValues a wd).map fun x => x ^ 2 :=
    List.mem_map.mpr ⟨(getCount a q.1 : ℝ), List.mem_map.mpr ⟨q, hq, rfl⟩, rfl⟩
  have hsq_pos : 0 < sqSum (specValues a wd) := by
    have hle := List.single_le_sum
      (fun x hx => by
        obtain ⟨y, _, rfl⟩ := List.mem_map.mp hx
        exact sq_nonneg y)
      _ hmemsq
    have hgt : (0 : ℝ) < ((getCount a q.1 : ℝ)) ^ 2 := by
      have : (0 : ℝ) < (getCount a q.1 : ℝ) := by exact_mod_cast Nat.pos_of_ne_zero hqnz
      positivity
    exact lt_of_lt_of_le hgt hle
  have hnden_pos : 0 < normDen ps := by
    rw [hnden]
    exact Real.sqrt_pos.mpr hsq_pos
  have hwn : wnOf ps = specWn a wd := by
    rw [wnOf, hnden, specWn, specValues, zipWith_map_self]
    simp [hps, List.map_map, Function.comp_def]
  have hratio : topsisRatio ps = specRatioVal a wd := by
    rw [topsisRatio, specRatioVal, hwn]
  have hscore : scoreFromPairs ps = specStreetScore a wd := by
    rw [scoreFromPairs, if_neg (ne_of_gt hnden_pos), hratio, specStreetScore,
      mul_comm]
  refine ⟨?_, ?_⟩
  · rw [calculate_street_score, ← hwd, hpairs, Option.map_some', hscore]
  · obtain ⟨hr0, hr1⟩ := specRatioVal_bounds a wd
    exact round2R_bounds (by linarith) (by linarith)

/-- Witness for score_contract at a concrete input: a single hospital with
three places under the default catalog weights. -/
theorem score_contract_witness :
    ((((effWeights none).map Prod.fst).Nodup ∧
      (∀ p ∈ effWeights none, 0 < p.2) ∧
      (∀ p ∈ effWeights none, (dictGet AMENITY_WEIGHTS p.1).isSome = true) ∧
      (∃ p ∈ effWeights none, getCount [(("Hospital" : String), 3)] p.1 ≠ 0)) ∧
     calculate_street_score [(("Hospital" : String), 3)] none =
       some (specStreetScore [(("Hospital" : String), 3)] (effWeights none)) ∧
     0 ≤ specStreetScore [(("Hospital" : String), 3)] (effWeights none) ∧
     specStreetScore [(("Hospital" : String), 3)] (effWeights none) ≤ 10) :=
  ⟨⟨by decide, by decide, by decide, by decide⟩,
   score_contract [(("Hospital" : String), 3)] none
     (by decide) (by decide) (by decide) (by decide)⟩

theorem getCount_eq_zero {a : AmenityMap} (hz : ∀ p ∈ a, p.2 = 0) (c : String) :
    getCount a c = 0 := by
  induction a with
  | nil => rfl
  | cons p rest ih =>
    obtain ⟨k, v⟩ := p
    by_cases hk : k = c
    · have : v = 0 := hz (k, v) (List.mem_cons_self _ _)
      simp [getCount, dictGet, hk, this]
    · have := ih (fun q hq => hz q (List.mem_cons_of_mem _ hq))
      simpa [getCount, dictGet, hk] using this

/-- C8: for every AmenityMap whose category counts are all zero (absent
categories included), calculate_street_score returns exactly 0.0 and
calculate_noise_level returns "Low"; neither errors (given weight-vector keys
drawn from the catalog, the universe of the WeightVector data model). -/
theorem zero_counts_defined (a : AmenityMap) (wopt : Option WeightVector)
    (hz : ∀ p ∈ a, p.2 = 0)
    (hcat : ∀ p ∈ effWeights wopt, (dictGet AMENITY_WEIGHTS p.1).isSome = true) :
    calculate_street_score a wopt = some 0 ∧ calculate_noise_level a = "Low" := by
  obtain ⟨ps, hps, hmap⟩ :=
    buildPairsAux_some a (effWeights wopt) (effWeights wopt) hcat
  have hvals0 : ∀ x ∈ ps.map (fun p => ((p.1 : ℝ))), x = 0 := by
    intro x hx
    obtain ⟨p, hp, rfl⟩ := List.mem_map.mp hx
    have h1 : p.1 ∈ ps.map Prod.fst := List.mem_map.mpr ⟨p, hp, rfl⟩
    rw [hmap] at h1
    obtain ⟨q, _, hqe⟩ := List.mem_map.mp h1
    rw [← hqe, getCount_eq_zero hz]
    norm_num
  have hnden0 : normDen ps = 0 := by
    rw [normDen]
    have : sqSum (ps.map fun p => ((p.1 : ℝ))) = 0 := by
      rw [sqSum]
      apply List.sum_eq_zero
      intro x hx
      obtain ⟨y, hy, rfl⟩ := List.mem_map.mp hx
      rw [hvals0 y hy]
      norm_num
    rw [this, Real.sqrt_zero]
  constructor
  · rw [calculate_street_score, buildPairs, hps, Option.map_some',
      scoreFromPairs, if_pos hnden0]
  · have ht : total_noise a = 0 := by
      rw [total_noise]
      apply List.sum_eq_zero
      intro x hx
      obtain ⟨p, hp, rfl⟩ := List.mem_map.mp hx
      rw [hz p hp]
      norm_num
    have hsc : noise_score a = 0 := by
      rw [noise_score, ht]
      norm_num [round2q]
    rw [calculate_noise_level, hsc]
    norm_num

/-- Witness for zero_counts_defined: a map with Park present but empty and
default weights. -/
theorem zero_counts_defined_witness :
    ((∀ p ∈ ([(("Park" : String), 0)] : AmenityMap), p.2 = 0) ∧
     (∀ p ∈ effWeights none, (dictGet AMENITY_WEIGHTS p.1).isSome = true)) ∧
    calculate_street_score [(("Park" : String), 0)] none = some 0 ∧
    calculate_noise_level [(("Park" : String), 0)] = "Low" :=
  ⟨⟨by decide, by decide⟩,
   zero_counts_defined [(("Park" : String), 0)] none (by decide) (by decide)⟩

/-- C3 (code-bug evidence): with a custom weight vector containing only Park,
an AmenityMap holding five hospitals scores 0.0.  The loop of
calculate_street_score ranges only over the custom vector's own keys, so the
Hospital category of the default catalog is skipped entirely — its count never
reaches the value vector and the advertised fallback to the default weight
never fires. -/
theorem custom_missing_category_skipped :
    calculate_street_score [(("Hospital" : String), 5)]
      (some [(("Park" : String), 4)]) = some 0 ∧
    getCount [(("Hospital" : String), 5)] "Hospital" = 5 ∧
    "Hospital" ∈ AMENITY_WEIGHTS.map Prod.fst ∧
    "Hospital" ∉ ([(("Park" : String), 4)] : WeightVector).map Prod.fst := by
  refine ⟨?_, by decide, by decide, by decide⟩
  have h : buildPairs [(("Hospital" : String), 5)]
      (effWeights (some [(("Park" : String), 4)])) = some [((0 : ℚ), (4 : ℚ))] := by
    decide
  have hn : normDen [((0 : ℚ), (4 : ℚ))] = 0 := by
    rw [normDen]
    simp [sqSum]
  rw [calculate_street_score, h, Option.map_some', scoreFromPairs, if_pos hn]

/-- Uniformly scale every category count of an AmenityMap by k. -/
def scaleMap (k : ℕ) (a : AmenityMap) : AmenityMap :=
  a.map fun p => (p.1, k * p.2)

theorem getCount_scaleMap (k : ℕ) (a : AmenityMap) (c : String) :
    getCount (scaleMap k a) c = k * getCount a c := by
  induction a with
  | nil => simp [scaleMap, getCount, dictGet]
  | cons p rest ih =>
    obtain ⟨c', v⟩ := p
    by_cases h : c' = c
    · simp [scaleMap, getCount, dictGet, h]
    · simpa [scaleMap, getCount, dictGet, h] using ih

theorem buildPairsAux_scale (k : ℕ) (a : AmenityMap) (wd : WeightVector)
    (l : List (String × ℚ)) :
    buildPairsAux (scaleMap k a) wd l =
      (buildPairsAux a wd l).map (List.map fun p => ((k : ℚ) * p.1, p.2)) := by
  induction l with
  | nil => rfl
  | cons p rest ih =>
    obtain ⟨c, w⟩ := p
    simp only [buildPairsAux]
    cases hd : dictGet AMENITY_WEIGHTS c with
    | none => rfl
    | some d =>
      rw [ih]
      cases hr : buildPairsAux a wd rest with
      | none => rfl
      | some ps => simp [getCount_scaleMap, Nat.cast_mul]

theorem sqSum_mul (c : ℝ) (l : List ℝ) :
    sqSum (l.map fun x => c * x) = c ^ 2 * sqSum l := by
  rw [sqSum, sqSum, List.map_map]
  have h : ((fun x => x ^ 2) ∘ fun x => c * x) = fun x => c ^ 2 * x ^ 2 := by
    funext x
    simp [mul_pow]
  rw [h, ← List.sum_map_mul_left]

theorem scoreFromPairs_scale (k : ℚ) (hk : 0 < k) (ps : List (ℚ × ℚ)) :
    scoreFromPairs (ps.map fun p => (k * p.1, p.2)) = scoreFromPairs ps := by
  have hkR : (0 : ℝ) < (k : ℝ) := by exact_mod_cast hk
  have hmap : (ps.map fun p => (k * p.1, p.2)).map (fun p => ((p.1 : ℝ))) =
      (ps.map fun p => ((p.1 : ℝ))).map (fun x => (k : ℝ) * x) := by
    simp [List.map_map, Function.comp_def]
  have hnden : normDen (ps.map fun p => (k * p.1, p.2)) = (k : ℝ) * normDen ps := by
    rw [normDen, normDen, hmap, sqSum_mul,
      Real.sqrt_mul (by positivity), Real.sqrt_sq hkR.le]
  by_cases h0 : normDen ps = 0
  · rw [scoreFromPairs, scoreFromPairs, if_pos h0,
      if_pos (by rw [hnden, h0, mul_zero])]
  · have h0' : normDen (ps.map fun p => (k * p.1, p.2)) ≠ 0 := by
      rw [hnden]
      exact mul_ne_zero (ne_of_gt hkR) h0
    have hwn : wnOf (ps.map fun p => (k * p.1, p.2)) = wnOf ps := by
      rw [wnOf, wnOf, hnden, List.map_map]
      apply List.map_congr_left
      intro p _
      simp only [Function.comp_def]
      push_cast
      rw [mul_div_mul_left _ _ (ne_of_gt hkR)]
    rw [scoreFromPairs, scoreFromPairs, if_neg h0', if_neg h0,
      topsisRatio, topsisRatio, hwn]

theorem scale_invariant (a : AmenityMap) (k : ℕ) (hk : 0 < k)
    (wopt : Option WeightVector) :
    calculate_street_score (scaleMap k a) wopt = calculate_street_score a wopt := by
  rw [calculate_street_score, calculate_street_score, buildPairs, buildPairs,
    buildPairsAux_scale]
  cases h : buildPairsAux a (effWeights wopt) (effWeights wopt) with
  | none => rfl
  | some ps =>
    simp only [Option.map_some']
    exact congrArg some (scoreFromPairs_scale (k : ℚ) (by exact_mod_cast hk) ps)

/-- C4 counterexample: the claim that some AmenityMap with a nonzero count and
some positive uniform scale factor changes the score is false — in exact
arithmetic the TOPSIS score is invariant under every uniform positive scaling
(the value-vector normalization cancels the factor), not only in the all-zero
case. -/
theorem scale_sensitivity_refuted :
    ¬ ∃ (a : AmenityMap) (k : ℕ) (wopt : Option WeightVector),
      0 < k ∧ (∃ p ∈ a, p.2 ≠ 0) ∧
      calculate_street_score (scaleMap k a) wopt ≠
        calculate_street_score a wopt := by
  rintro ⟨a, k, wopt, hk, -, hne⟩
  exact hne (scale_invariant a k hk wopt)

/-- C4 amended: calculate_street_score is invariant under uniformly scaling
all category counts by any positive factor, for every AmenityMap — all-zero
or not — and every weight-vector argument. -/
theorem scale_invariance_general (a : AmenityMap) (k : ℕ)
    (wopt : Option WeightVector) (hk : 0 < k) :
    calculate_street_score (scaleMap k a) wopt = calculate_street_score a wopt :=
  scale_invariant a k hk wopt

/-- Witness for scale_invariance_general: doubling a one-hospital map. -/
theorem scale_invariance_general_witness :
    0 < 2 ∧ calculate_street_score (scaleMap 2 [(("Hospital" : String), 1)]) none =
      calculate_street_score [(("Hospital" : String), 1)] none :=
  ⟨by decide, scale_invariance_general [(("Hospital" : String), 1)] 2 none (by decide)⟩

/-- Noise weight table as worded in the specification: the six named buckets,
any other category weighing 1.0. -/
def specNoiseWeight (c : String) : ℚ :=
  if c = "Transports" then 3
  else if c = "Shops" then 2
  else if c = "Entertainment" then 5/2
  else if c = "Restaurants" then 3/2
  else if c = "Shrines" then 1/2
  else if c = "Parks" then 3/10
  else 1

/-- Noise score as worded in the specification: round(total over the present
categories divided by (sum of the six bucket weights * 10), times 10, 2). -/
def specNoiseScore (a : AmenityMap) : ℚ :=
  round2q ((a.map fun p => specNoiseWeight p.1 * (p.2 : ℚ)).sum /
    ((3 + 2 + 5/2 + 3/2 + 1/2 + 3/10) * 10) * 10)

theorem noiseWeightOf_eq (c : String) : noiseWeightOf c = specNoiseWeight c := by
  by_cases h1 : c = "Transports"
  · subst h1; simp [noiseWeightOf, specNoiseWeight, NOISE_WEIGHTS, dictGet]
  by_cases h2 : c = "Shops"
  · subst h2; simp [noiseWeightOf, specNoiseWeight, NOISE_WEIGHTS, dictGet]
  by_cases h3 : c = "Entertainment"
  · subst h3; simp [noiseWeightOf, specNoiseWeight, NOISE_WEIGHTS, dictGet]
  by_cases h4 : c = "Restaurants"
  · subst h4; simp [noiseWeightOf, specNoiseWeight, NOISE_WEIGHTS, dictGet]
  by_cases h5 : c = "Shrines"
  · subst h5; simp [noiseWeightOf, specNoiseWeight, NOISE_WEIGHTS, dictGet]
  by_cases h6 : c = "Parks"
  · subst h6; simp [noiseWeightOf, specNoiseWeight, NOISE_WEIGHTS, dictGet]
  rw [noiseWeightOf, NOISE_WEIGHTS]
  rw [dictGet, if_neg (fun h => h1 h.symm), dictGet, if_neg (fun h => h2 h.symm),
    dictGet, if_neg (fun h => h3 h.symm), dictGet, if_neg (fun h => h4 h.symm),
    dictGet, if_neg (fun h => h5 h.symm), dictGet, if_neg (fun h => h6 h.symm),
    dictGet]
  rw [specNoiseWeight, if_neg h1, if_neg h2, if_neg h3, if_neg h4, if_neg h5,
    if_neg h6]
  rfl

theorem noise_score_eq (a : AmenityMap) : noise_score a = specNoiseScore a := by
  have h1 : total_noise a = (a.map fun p => specNoiseWeight p.1 * (p.2 : ℚ)).sum := by
    rw [total_noise]
    exact congrArg List.sum (List.map_congr_left fun p _ => by rw [noiseWeightOf_eq])
  have h2 : max_noise = (3 + 2 + 5/2 + 3/2 + 1/2 + 3/10) * 10 := by
    norm_num [max_noise, NOISE_WEIGHTS]
  rw [noise_score, specNoiseScore, h1, h2]

/-- C6: calculate_noise_level labels by the spec's noise score — "High" iff
the rounded score is at least 7, "Medium" iff it is in [4, 7), "Low" iff it is
below 4 — and the concrete boundary cases behave as claimed: a score of
exactly 7.00 is "High", 6.99 is "Medium", exactly 4.00 is "Medium", 3.99 is
"Low". -/
theorem noise_label_contract :
    (∀ a : AmenityMap,
      (calculate_noise_level a = "High" ↔ 7 ≤ specNoiseScore a) ∧
      (calculate_noise_level a = "Medium" ↔
        4 ≤ specNoiseScore a ∧ specNoiseScore a < 7) ∧
      (calculate_noise_level a = "Low" ↔ specNoiseScore a < 4)) ∧
    specNoiseScore [(("Transports" : String), 22), ("Shops", 1), ("Parks", 2)] = 7 ∧
    calculate_noise_level [(("Transports" : String), 22), ("Shops", 1), ("Parks", 2)] = "High" ∧
    specNoiseScore [(("Transports" : String), 22), ("Entertainment", 1)] = 699/100 ∧
    calculate_noise_level [(("Transports" : String), 22), ("Entertainment", 1)] = "Medium" ∧
    specNoiseScore [(("Transports" : String), 12), ("Shops", 1), ("Parks", 4)] = 4 ∧
    calculate_noise_level [(("Transports" : String), 12), ("Shops", 1), ("Parks", 4)] = "Medium" ∧
    specNoiseScore [(("Shops" : String), 19), ("Shrines", 1), ("Parks", 2)] = 399/100 ∧
    calculate_noise_level [(("Shops" : String), 19), ("Shrines", 1), ("Parks", 2)] = "Low" := by
  refine ⟨?_,
    by
      simp only [specNoiseScore, specNoiseWeight, round2q, List.map_cons,
        List.map_nil, List.sum_cons, List.sum_nil, String.reduceEq, reduceIte]
      norm_num [round_eq],
    by
      simp only [calculate_noise_level, noise_score, total_noise, noiseWeightOf,
        NOISE_WEIGHTS, max_noise, dictGet, round2q, List.map_cons, List.map_nil,
        List.sum_cons, List.sum_nil, String.reduceEq, reduceIte, Option.getD_some]
      norm_num [round_eq],
    by
      simp only [specNoiseScore, specNoiseWeight, round2q, List.map_cons,
        List.map_nil, List.sum_cons, List.sum_nil, String.reduceEq, reduceIte]
      norm_num [round_eq],
    by
      simp only [calculate_noise_level, noise_score, total_noise, noiseWeightOf,
        NOISE_WEIGHTS, max_noise, dictGet, round2q, List.map_cons, List.map_nil,
        List.sum_cons, List.sum_nil, String.reduceEq, reduceIte, Option.getD_some]
      norm_num [round_eq],
    by
      simp only [specNoiseScore, specNoiseWeight, round2q, List.map_cons,
        List.map_nil, List.sum_cons, List.sum_nil, String.reduceEq, reduceIte]
      norm_num [round_eq],
    by
      simp only [calculate_noise_level, noise_score, total_noise, noiseWeightOf,
        NOISE_WEIGHTS, max_noise, dictGet, round2q, List.map_cons, List.map_nil,
        List.sum_cons, List.sum_nil, String.reduceEq, reduceIte, Option.getD_some]
      norm_num [round_eq],
    by
      simp only [specNoiseScore, specNoiseWeight, round2q, List.map_cons,
        List.map_nil, List.sum_cons, List.sum_nil, String.reduceEq, reduceIte]
      norm_num [round_eq],
    by
      simp only [calculate_noise_level, noise_score, total_noise, noiseWeightOf,
        NOISE_WEIGHTS, max_noise, dictGet, round2q, List.map_cons, List.map_nil,
        List.sum_cons, List.sum_nil, String.reduceEq, reduceIte, Option.getD_some]
      norm_num [round_eq]⟩
  intro a
  rw [calculate_noise_level, noise_score_eq]
  split_ifs with h7 h4
  · exact ⟨iff_of_true rfl h7,
      iff_of_false (by decide) (fun h => absurd h7 (not_le.mpr h.2)),
      iff_of_false (by decide)
        (fun h => absurd h7 (not_le.mpr (lt_trans h (by norm_num))))⟩
  · exact ⟨iff_of_false (by decide) h7,
      iff_of_true rfl ⟨h4, not_le.mp h7⟩,
      iff_of_false (by decide) (fun h => absurd h4 (not_le.mpr h))⟩
  · exact ⟨iff_of_false (by decide) h7,
      iff_of_false (by decide) (fun h => h4 h.1),
      iff_of_true rfl (not_le.mp h4)⟩

theorem le_listMax {l : List ℝ} {a : ℝ} (h : a ∈ l) : a ≤ listMax l := by
  induction l with
  | nil => cases h
  | cons x xs ih =>
    cases xs with
    | nil =>
      rw [List.mem_singleton] at h
      subst h
      simp [listMax]
    | cons y ys =>
      rcases List.mem_cons.mp h with rfl | h'
      · simp [listMax]
      · calc a ≤ listMax (y :: ys) := ih h'
          _ ≤ max x (listMax (y :: ys)) := le_max_right _ _
          _ = listMax (x :: y :: ys) := by rw [listMax]

theorem listMax_le {l : List ℝ} {b : ℝ} (hne : l ≠ []) (hub : ∀ x ∈ l, x ≤ b) :
    listMax l ≤ b := by
  induction l with
  | nil => exact absurd rfl hne
  | cons x xs ih =>
    cases xs with
    | nil => simpa [listMax] using hub x (List.mem_singleton_self x)
    | cons y ys =>
      rw [listMax]
      exact max_le (hub x (List.mem_cons_self _ _))
        (ih (by simp) fun z hz => hub z (List.mem_cons_of_mem _ hz))

theorem listMax_eq {l : List ℝ} {b : ℝ} (hmem : b ∈ l)
    (hub : ∀ x ∈ l, x ≤ b) : listMax l = b :=
  le_antisymm (listMax_le (List.ne_nil_of_mem hmem) hub) (le_listMax hmem)

theorem listMin_le {l : List ℝ} {a : ℝ} (h : a ∈ l) : listMin l ≤ a := by
  induction l with
  | nil => cases h
  | cons x xs ih =>
    cases xs with
    | nil =>
      rw [List.mem_singleton] at h
      subst h
      simp [listMin]
    | cons y ys =>
      rcases List.mem_cons.mp h with rfl | h'
      · simp [listMin]
      · calc listMin (x :: y :: ys) = min x (listMin (y :: ys)) := by rw [listMin]
          _ ≤ listMin (y :: ys) := min_le_right _ _
          _ ≤ _ := ih h'

theorem le_listMin {l : List ℝ} {b : ℝ} (hne : l ≠ []) (hlb : ∀ x ∈ l, b ≤ x) :
    b ≤ listMin l := by
  induction l with
  | nil => exact absurd rfl hne
  | cons x xs ih =>
    cases xs with
    | nil => simpa [listMin] using hlb x (List.mem_singleton_self x)
    | cons y ys =>
      rw [listMin]
      exact le_min (hlb x (List.mem_cons_self _ _))
        (ih (by simp) fun z hz => hlb z (List.mem_cons_of_mem _ hz))

theorem listMin_eq {l : List ℝ} {b : ℝ} (hmem : b ∈ l)
    (hlb : ∀ x ∈ l, b ≤ x) : listMin l = b :=
  le_antisymm (listMin_le hmem) (le_listMin (List.ne_nil_of_mem hmem) hlb)

theorem sqSum_append (l1 l2 : List ℝ) :
    sqSum (l1 ++ l2) = sqSum l1 + sqSum l2 := by
  simp [sqSum, List.map_append]

theorem sqSum_cons (x : ℝ) (l : List ℝ) : sqSum (x :: l) = x ^ 2 + sqSum l := by
  simp [sqSum]

theorem sqSum_zero_list {l : List ℝ} (h : ∀ x ∈ l, x = 0) : sqSum l = 0 := by
  rw [sqSum]
  apply List.sum_eq_zero
  intro x hx
  obtain ⟨y, hy, rfl⟩ := List.mem_map.mp hx
  rw [h y hy]
  norm_num

theorem sqSum_replicate (m : ℕ) (c : ℝ) :
    sqSum (List.replicate m c) = (m : ℝ) * c ^ 2 := by
  simp [sqSum, List.map_replicate, List.sum_replicate, nsmul_eq_mul]

theorem scoreFromPairs_single (p1 p2 : List (ℚ × ℚ)) (n w : ℚ)
    (hn : 0 < n) (hw : 0 < w)
    (h1 : ∀ p ∈ p1, p.1 = 0) (h2 : ∀ p ∈ p2, p.1 = 0)
    (hlen : 0 < p1.length + p2.length) :
    scoreFromPairs (p1 ++ (n, w) :: p2) =
      round2R (1 / (1 + Real.sqrt ((p1.length : ℝ) + (p2.length : ℝ))) * 10) := by
  have hnR : (0 : ℝ) < (n : ℝ) := by exact_mod_cast hn
  have hwR : (0 : ℝ) < (w : ℝ) := by exact_mod_cast hw
  set ps := p1 ++ (n, w) :: p2 with hpsdef
  have hz1 : ∀ x ∈ p1.map (fun p => ((p.1 : ℝ))), x = 0 := by
    intro x hx
    obtain ⟨p, hp, rfl⟩ := List.mem_map.mp hx
    rw [h1 p hp]
    norm_num
  have hz2 : ∀ x ∈ p2.map (fun p => ((p.1 : ℝ))), x = 0 := by
    intro x hx
    obtain ⟨p, hp, rfl⟩ := List.mem_map.mp hx
    rw [h2 p hp]
    norm_num
  have hsq : sqSum (ps.map fun p => ((p.1 : ℝ))) = (n : ℝ) ^ 2 := by
    rw [hpsdef, List.map_append, List.map_cons, sqSum_append, sqSum_cons,
      sqSum_zero_list hz1, sqSum_zero_list hz2]
    ring
  have hnden : normDen ps = (n : ℝ) := by
    rw [normDen, hsq, Real.sqrt_sq hnR.le]
  have hne : normDen ps ≠ 0 := by
    rw [hnden]
    exact ne_of_gt hnR
  have hwn : wnOf ps = List.replicate p1.length 0 ++
      (w : ℝ) :: List.replicate p2.length 0 := by
    rw [wnOf, hnden, hpsdef, List.map_append, List.map_cons]
    congr 1
    · rw [List.eq_replicate_iff]
      refine ⟨by simp, ?_⟩
      intro b hb
      obtain ⟨p, hp, rfl⟩ := List.mem_map.mp hb
      rw [h1 p hp]
      norm_num
    · congr 1
      · field_simp
      · rw [List.eq_replicate_iff]
        refine ⟨by simp, ?_⟩
        intro b hb
        obtain ⟨p, hp, rfl⟩ := List.mem_map.mp hb
        rw [h2 p hp]
        norm_num
  have hmax : listMax (wnOf ps) = (w : ℝ) := by
    rw [hwn]
    apply listMax_eq
    · exact List.mem_append_right _ (List.mem_cons_self _ _)
    · intro x hx
      rcases List.mem_append.mp hx with h | h
      · rw [List.eq_of_mem_replicate h]
        exact hwR.le
      · rcases List.mem_cons.mp h with rfl | h'
        · exact le_refl _
        · rw [List.eq_of_mem_replicate h']
          exact hwR.le
  have hmin : listMin (wnOf ps) = 0 := by
    rw [hwn]
    apply listMin_eq
    · rcases Nat.lt_or_ge 0 p1.length with h | h
      · exact List.mem_append_left _
          (List.mem_replicate.mpr ⟨by omega, rfl⟩)
      · have hp2 : p2.length ≠ 0 := by omega
        exact List.mem_append_right _
          (List.mem_cons_of_mem _ (List.mem_replicate.mpr ⟨hp2, rfl⟩))
    · intro x hx
      rcases List.mem_append.mp hx with h | h
      · rw [List.eq_of_mem_replicate h]
      · rcases List.mem_cons.mp h with rfl | h'
        · exact hwR.le
        · rw [List.eq_of_mem_replicate h']
  have hdb : distTo (wnOf ps) (listMax (wnOf ps)) =
      Real.sqrt ((p1.length : ℝ) + (p2.length : ℝ)) * (w : ℝ) := by
    rw [hmax, distTo, hwn, List.map_append, List.map_cons, List.map_replicate,
      List.map_replicate, sqSum_append, sqSum_cons, sqSum_replicate,
      sqSum_replicate]
    rw [show (0 : ℝ) - w = -w by ring, show ((w : ℝ)) - w = 0 by ring]
    rw [show (p1.length : ℝ) * (-(w : ℝ)) ^ 2 + ((0 : ℝ) ^ 2 +
        (p2.length : ℝ) * (-(w : ℝ)) ^ 2) =
        (((p1.length : ℝ) + (p2.length : ℝ))) * (w : ℝ) ^ 2 by ring]
    rw [Real.sqrt_mul (by positivity), Real.sqrt_sq hwR.le]
  have hdw : distTo (wnOf ps) (listMin (wnOf ps)) = (w : ℝ) := by
    rw [hmin, distTo, hwn, List.map_append, List.map_cons, List.map_replicate,
      List.map_replicate, sqSum_append, sqSum_cons, sqSum_replicate,
      sqSum_replicate]
    rw [show (0 : ℝ) - 0 = 0 by ring, show ((w : ℝ)) - 0 = w by ring]
    rw [show (p1.length : ℝ) * (0 : ℝ) ^ 2 + ((w : ℝ) ^ 2 +
        (p2.length : ℝ) * (0 : ℝ) ^ 2) = (w : ℝ) ^ 2 by ring]
    exact Real.sqrt_sq hwR.le
  have hsum_pos : 0 < distTo (wnOf ps) (listMax (wnOf ps)) +
      distTo (wnOf ps) (listMin (wnOf ps)) := by
    rw [hdb, hdw]
    have := Real.sqrt_nonneg ((p1.length : ℝ) + (p2.length : ℝ))
    nlinarith
  have hratio : topsisRatio ps =
      1 / (1 + Real.sqrt ((p1.length : ℝ) + (p2.length : ℝ))) := by
    rw [topsisRatio, if_neg (ne_of_gt hsum_pos), hdb, hdw]
    rw [show Real.sqrt ((p1.length : ℝ) + (p2.length : ℝ)) * (w : ℝ) + (w : ℝ) =
        (w : ℝ) * (1 + Real.sqrt ((p1.length : ℝ) + (p2.length : ℝ))) by ring]
    rw [div_mul_cancel_left₀ (ne_of_gt hwR), one_div]
  rw [scoreFromPairs, if_neg hne, hratio]

theorem round2R_inv_sqrt12 :
    round2R (1 / (1 + Real.sqrt 12) * 10) = 2.24 := by
  have hlb : (3.46 : ℝ) < Real.sqrt 12 :=
    (Real.lt_sqrt (by norm_num)).mpr (by norm_num)
  have hub : Real.sqrt 12 < 3.47 :=
    (Real.sqrt_lt' (by norm_num)).mpr (by norm_num)
  have hy : (0 : ℝ) < 1 + Real.sqrt 12 := by linarith
  have h1 : 1000 / (1 + Real.sqrt 12) < 224.5 := by
    rw [div_lt_iff₀ hy]
    nlinarith
  have h2 : (223.5 : ℝ) ≤ 1000 / (1 + Real.sqrt 12) := by
    rw [le_div_iff₀ hy]
    nlinarith
  have hround : round (1 / (1 + Real.sqrt 12) * 10 * 100) = 224 := by
    rw [show 1 / (1 + Real.sqrt 12) * 10 * 100 = 1000 / (1 + Real.sqrt 12) by
      ring, round_eq]
    rw [Int.floor_eq_iff]
    constructor
    · push_cast
      linarith
    · push_cast
      linarith
  rw [round2R, hround]
  norm_num

theorem score_single_cat (wd : WeightVector) (a : AmenityMap) (c : String)
    (wv : ℚ) (n m : ℕ)
    (hnd : (wd.map Prod.fst).Nodup)
    (hcat : ∀ p ∈ wd, (dictGet AMENITY_WEIGHTS p.1).isSome = true)
    (hc : (c, wv) ∈ wd) (hwv : 0 < wv) (hn : 0 < n)
    (ha : getCount a c = n)
    (hz : ∀ p ∈ wd, p.1 ≠ c → getCount a p.1 = 0)
    (hm : wd.length = m + 1) (hm0 : 0 < m) :
    (buildPairs a wd).map scoreFromPairs =
      some (round2R (1 / (1 + Real.sqrt (m : ℝ)) * 10)) := by
  obtain ⟨w1, w2, rfl⟩ := List.append_of_mem hc
  have hkeys : (w1.map Prod.fst).Nodup ∧ (c :: w2.map Prod.fst).Nodup ∧
      (w1.map Prod.fst).Disjoint (c :: w2.map Prod.fst) := by
    rw [← List.nodup_append]
    simpa using hnd
  have hq1 : ∀ q ∈ w1, q.1 ≠ c := by
    intro q hq hqc
    exact hkeys.2.2 (List.mem_map.mpr ⟨q, hq, hqc⟩) (List.mem_cons_self _ _)
  have hq2 : ∀ q ∈ w2, q.1 ≠ c := by
    intro q hq hqc
    exact (List.nodup_cons.mp hkeys.2.1).1 (List.mem_map.mpr ⟨q, hq, hqc⟩)
  rw [buildPairs_eq a _ hnd hcat, Option.map_some', List.map_append,
    List.map_cons, ha]
  have hsing := scoreFromPairs_single
    (w1.map fun p => ((getCount a p.1 : ℚ), p.2))
    (w2.map fun p => ((getCount a p.1 : ℚ), p.2))
    (n : ℚ) wv (by exact_mod_cast hn) hwv
    (by
      intro p hp
      obtain ⟨q, hq, rfl⟩ := List.mem_map.mp hp
      have := hz q (List.mem_append_left _ hq) (hq1 q hq)
      simp [this])
    (by
      intro p hp
      obtain ⟨q, hq, rfl⟩ := List.mem_map.mp hp
      have := hz q (List.mem_append_right _ (List.mem_cons_of_mem _ hq)) (hq2 q hq)
      simp [this])
    (by
      simp only [List.length_map]
      have : w1.length + (w2.length + 1) = m + 1 := by
        simpa [List.length_append] using hm
      omega)
  rw [hsing]
  have hlen : w1.length + w2.length = m := by
    have : w1.length + (w2.length + 1) = m + 1 := by
      simpa [List.length_append] using hm
    omega
  congr 2
  simp only [List.length_map]
  push_cast [← hlen]
  ring

/-- C10: an AmenityMap whose nonzero counts sit in exactly one of the 13
default catalog categories scores round(10 / (1 + sqrt 12), 2) = 2.24 under
the default weights, independently of the category, its weight, and the
count. -/
theorem single_category_default_score (c : String) (n : ℕ) (a : AmenityMap)
    (hc : c ∈ AMENITY_WEIGHTS.map Prod.fst) (hn : 1 ≤ n)
    (ha : getCount a c = n)
    (hz : ∀ d ∈ AMENITY_WEIGHTS.map Prod.fst, d ≠ c → getCount a d = 0) :
    calculate_street_score a none = some 2.24 := by
  obtain ⟨p, hp, rfl⟩ := List.mem_map.mp hc
  have hwv : 0 < p.2 := by
    have : ∀ q ∈ AMENITY_WEIGHTS, 0 < q.2 := by decide
    exact this p hp
  have hmem : (p.1, p.2) ∈ AMENITY_WEIGHTS := by
    simpa using hp
  have h := score_single_cat AMENITY_WEIGHTS a p.1 p.2 n 12 (by decide)
    (by decide) hmem hwv (by omega) ha
    (fun q hq hqc => hz q.1 (List.mem_map.mpr ⟨q, hq, rfl⟩) hqc)
    (by decide) (by decide)
  rw [calculate_street_score, show effWeights none = AMENITY_WEIGHTS from rfl, h]
  rw [show ((12 : ℕ) : ℝ) = 12 by norm_num, round2R_inv_sqrt12]

/-- Witness for single_category_default_score: two parks and nothing else. -/
theorem single_category_default_score_witness :
    (("Park" ∈ AMENITY_WEIGHTS.map Prod.fst) ∧ 1 ≤ 2 ∧
     getCount [(("Park" : String), 2)] "Park" = 2 ∧
     (∀ d ∈ AMENITY_WEIGHTS.map Prod.fst, d ≠ "Park" →
       getCount [(("Park" : String), 2)] d = 0)) ∧
    calculate_street_score [(("Park" : String), 2)] none = some 2.24 :=
  ⟨⟨by decide, by decide, by decide, by decide⟩,
   single_category_default_score "Park" 2 [(("Park" : String), 2)]
     (by decide) (by decide) (by decide) (by decide)⟩

theorem filterMap_some_comp {α β : Type} (g : α → β) (l : List α) :
    l.filterMap (fun a => some (g a)) = l.map g := by
  induction l with
  | nil => rfl
  | cons x xs ih => simp [List.filterMap_cons, ih]

theorem progressValues_event_stream (streets : List Street)
    (lookup : Street → AmenityMap) (w : WeightVector) (h : streets ≠ []) :
    progressValues (event_stream streets lookup w) =
      (List.range streets.length).map fun i => progressOf i streets.length := by
  rw [event_stream, if_neg (by simpa using h)]
  simp only [progressValues, List.filterMap_cons, List.filterMap_nil,
    List.filterMap_append, List.filterMap_map, Function.comp_def]
  rw [filterMap_some_comp]
  simp

theorem getLast?_cons_concat {α : Type} (a b : α) (l : List α) :
    (a :: (l ++ [b])).getLast? = some b :=
  List.getLast?_concat (a :: l)

theorem event_stream_last (streets : List Street) (lookup : Street → AmenityMap)
    (w : WeightVector) (h : streets ≠ []) :
    (event_stream streets lookup w).getLast? =
      some (Event.streetsEv (rankedList streets lookup w)) := by
  rw [event_stream, if_neg (by simpa using h)]
  exact getLast?_cons_concat _ _ _

theorem pyInt_eq_floor {q : ℚ} (h : 0 ≤ q) : pyInt q = Int.floor q := by
  rw [pyInt, if_pos h]

/-- C2 counterexample: with three streets, the progress event emitted after
the candidate at index 1 carries 66 (truncation of 66.67), while the claimed
round(((1+1)/3)*100) is 67. -/
theorem progress_round_refuted :
    (progressValues (event_stream
        [⟨"a", 0, 0⟩, ⟨"b", 1, 0⟩, ⟨"c", 2, 0⟩] (fun _ => []) [])).get? 1 =
      some 66 ∧
    round ((((1 : ℕ) : ℚ) + 1) / 3 * 100) = 67 ∧ (66 : ℤ) ≠ 67 := by
  refine ⟨?_, by norm_num [round_eq], by decide⟩
  rw [progressValues_event_stream _ _ _ (by simp)]
  rw [List.get?_map]
  norm_num [List.get?_eq_getElem?, progressOf, pyInt]

/-- C2 amended: after processing the candidate at 0-based position index, the
emitted progress value is the int() truncation floor(((index+1)/N)*100), not
the rounding to the nearest integer. -/
theorem progress_truncation (streets : List Street)
    (lookup : Street → AmenityMap) (w : WeightVector) (h : streets ≠ []) :
    progressValues (event_stream streets lookup w) =
      (List.range streets.length).map fun i : ℕ =>
        Int.floor ((((i : ℚ)) + 1) / (streets.length : ℚ) * 100) := by
  rw [progressValues_event_stream streets lookup w h]
  apply List.map_congr_left
  intro i _
  rw [progressOf, pyInt_eq_floor (by positivity)]

/-- Witness for progress_truncation on a one-street list. -/
theorem progress_truncation_witness :
    ([(⟨"a", 0, 0⟩ : Street)] ≠ []) ∧
    progressValues (event_stream [(⟨"a", 0, 0⟩ : Street)] (fun _ => []) []) =
      (List.range [(⟨"a", 0, 0⟩ : Street)].length).map fun i : ℕ =>
        Int.floor ((((i : ℚ)) + 1) / ([(⟨"a", 0, 0⟩ : Street)].length : ℚ) * 100) :=
  ⟨by simp, progress_truncation [⟨"a", 0, 0⟩] (fun _ => []) [] (by simp)⟩

theorem progressOf_le_succ (i N : ℕ) : progressOf i N ≤ progressOf (i + 1) N := by
  rw [progressOf, progressOf, pyInt_eq_floor (by positivity),
    pyInt_eq_floor (by positivity)]
  apply Int.floor_mono
  rcases Nat.eq_zero_or_pos N with hN | hN
  · subst hN
    norm_num
  · have hNQ : (0 : ℚ) < (N : ℚ) := by exact_mod_cast hN
    rw [div_mul_eq_mul_div, div_mul_eq_mul_div, div_le_div_iff₀ hNQ hNQ]
    push_cast
    nlinarith

theorem progressOf_lt_succ (i N : ℕ) (hN : 0 < N) (hle : N ≤ 100) :
    progressOf i N < progressOf (i + 1) N := by
  have hNQ : (0 : ℚ) < (N : ℚ) := by exact_mod_cast hN
  rw [progressOf, progressOf, pyInt_eq_floor (by positivity),
    pyInt_eq_floor (by positivity)]
  have h1 : (1 : ℚ) ≤ 100 / (N : ℚ) := by
    rw [le_div_iff₀ hNQ]
    have : ((N : ℚ)) ≤ 100 := by exact_mod_cast hle
    linarith
  have h2 : (((i + 1 : ℕ) : ℚ) + 1) / (N : ℚ) * 100 -
      (((i : ℚ)) + 1) / (N : ℚ) * 100 = 100 / (N : ℚ) := by
    field_simp
    push_cast
    ring
  have key : (((i : ℚ)) + 1) / (N : ℚ) * 100 + 1 ≤
      (((i + 1 : ℕ) : ℚ) + 1) / (N : ℚ) * 100 := by linarith
  calc Int.floor ((((i : ℚ)) + 1) / (N : ℚ) * 100)
      < Int.floor ((((i : ℚ)) + 1) / (N : ℚ) * 100) + 1 := by omega
    _ = Int.floor ((((i : ℚ)) + 1) / (N : ℚ) * 100 + 1) :=
        (Int.floor_add_one _).symm
    _ ≤ Int.floor ((((i + 1 : ℕ) : ℚ) + 1) / (N : ℚ) * 100) :=
        Int.floor_mono key

/-- C5 amended: for every non-empty street list the progress values are
nondecreasing and the last one is 100; they are strictly increasing whenever
the list has at most 100 streets (with more streets, consecutive truncated
percentages can coincide). -/
theorem progress_monotone (streets : List Street)
    (lookup : Street → AmenityMap) (w : WeightVector) (h : streets ≠ []) :
    List.Chain' (· ≤ ·) (progressValues (event_stream streets lookup w)) ∧
    (progressValues (event_stream streets lookup w)).getLast? = some 100 ∧
    (streets.length ≤ 100 →
      List.Chain' (· < ·) (progressValues (event_stream streets lookup w))) := by
  have hN : 0 < streets.length := List.length_pos.mpr h
  rw [progressValues_event_stream _ _ _ h]
  obtain ⟨M, hM⟩ : ∃ M, streets.length = M + 1 := ⟨streets.length - 1, by omega⟩
  refine ⟨?_, ?_, ?_⟩
  · rw [List.chain'_map, hM]
    apply (List.chain'_range_succ _ M).mpr
    intro m _
    exact progressOf_le_succ m (M + 1)
  · rw [hM, List.range_succ, List.map_append, List.map_cons, List.map_nil,
      List.getLast?_concat]
    congr 1
    rw [progressOf, show ((M : ℚ) + 1) / (((M + 1 : ℕ)) : ℚ) * 100 = 100 by
      have : ((M : ℚ)) + 1 ≠ 0 := by positivity
      field_simp]
    rw [pyInt, if_pos (by norm_num)]
    norm_num
  · intro h100
    rw [List.chain'_map, hM]
    apply (List.chain'_range_succ _ M).mpr
    intro m _
    exact progressOf_lt_succ m (M + 1) (by omega) (by omega)

/-- Witness for progress_monotone on a one-street list. -/
theorem progress_monotone_witness :
    ([(⟨"a", 0, 0⟩ : Street)] ≠ []) ∧
    (List.Chain' (· ≤ ·) (progressValues
        (event_stream [(⟨"a", 0, 0⟩ : Street)] (fun _ => []) [])) ∧
     (progressValues (event_stream [(⟨"a", 0, 0⟩ : Street)]
        (fun _ => []) [])).getLast? = some 100 ∧
     ([(⟨"a", 0, 0⟩ : Street)].length ≤ 100 →
       List.Chain' (· < ·) (progressValues
         (event_stream [(⟨"a", 0, 0⟩ : Street)] (fun _ => []) [])))) :=
  ⟨by simp, progress_monotone [⟨"a", 0, 0⟩] (fun _ => []) [] (by simp)⟩

/-- C5 counterexample: with 102 distinct streets the progress sequence is not
strictly increasing — the events after candidates 50 and 51 both carry 50. -/
theorem progress_strict_refuted :
    ¬ List.Chain' (· < ·) (progressValues (event_stream
        ((List.range 102).map fun i : ℕ => (⟨"s", (i : ℚ), 0⟩ : Street))
        (fun _ => []) [])) := by
  intro hch
  rw [progressValues_event_stream _ _ _
    (by apply List.ne_nil_of_length_pos; simp)] at hch
  have hS : ((List.range 102).map fun i : ℕ => (⟨"s", (i : ℚ), 0⟩ : Street)).length
      = 102 := by simp
  rw [hS] at hch
  rw [List.chain'_iff_get] at hch
  have h50 := hch 50 (by norm_num)
  simp only [List.get_eq_getElem, List.getElem_map, List.getElem_range] at h50
  norm_num [progressOf, pyInt] at h50

/-- C9: when the street list handed to the ranking run is empty, the run
emits exactly one event with progress 100 and the empty street list, and no
per-street progress events. -/
theorem empty_input_immediate (cands : List Street)
    (lookup : Street → AmenityMap) (w : WeightVector)
    (h : dedup cands = []) :
    event_stream (dedup cands) lookup w = [Event.progressStreetsEv 100 []] := by
  rw [h, event_stream]
  simp

/-- Witness for empty_input_immediate on the empty candidate list. -/
theorem empty_input_immediate_witness :
    dedup [] = [] ∧
    event_stream (dedup []) (fun _ => ([] : AmenityMap)) [] =
      [Event.progressStreetsEv 100 []] :=
  ⟨rfl, empty_input_immediate [] (fun _ => ([] : AmenityMap)) [] rfl⟩

theorem length_insertDesc {α β : Type} [LinearOrder β] (key : α → β) (x : α) :
    ∀ l : List α, (insertDesc key x l).length = l.length + 1
  | [] => rfl
  | y :: ys => by
    rw [insertDesc]
    split_ifs
    · simp [length_insertDesc key x ys]
    · simp

theorem length_sortDesc {α β : Type} [LinearOrder β] (key : α → β)
    (l : List α) : (sortDesc key l).length = l.length := by
  induction l with
  | nil => rfl
  | cons x xs ih =>
    show (insertDesc key x (sortDesc key xs)).length = xs.length + 1
    rw [length_insertDesc, ih]

theorem mem_insertDesc {α β : Type} [LinearOrder β] (key : α → β) (x : α) :
    ∀ (l : List α) (a : α), a ∈ insertDesc key x l ↔ a = x ∨ a ∈ l
  | [], a => by simp [insertDesc]
  | y :: ys, a => by
    rw [insertDesc]
    split_ifs
    · rw [List.mem_cons, mem_insertDesc key x ys a, List.mem_cons]
      tauto
    · rw [List.mem_cons, List.mem_cons]

theorem sorted_insertDesc {α β : Type} [LinearOrder β] (key : α → β) (x : α)
    {l : List α} (hs : List.Sorted (fun u v => key v ≤ key u) l) :
    List.Sorted (fun u v => key v ≤ key u) (insertDesc key x l) := by
  induction l with
  | nil => simp [insertDesc]
  | cons y ys ih =>
    rw [List.sorted_cons] at hs
    rw [insertDesc]
    split_ifs with hlt
    · rw [List.sorted_cons]
      refine ⟨?_, ih hs.2⟩
      intro b hb
      rcases (mem_insertDesc key x ys b).mp hb with rfl | hb'
      · exact le_of_lt hlt
      · exact hs.1 b hb'
    · rw [List.sorted_cons]
      refine ⟨?_, List.sorted_cons.mpr hs⟩
      intro b hb
      rcases List.mem_cons.mp hb with rfl | hb'
      · exact not_lt.mp hlt
      · exact le_trans (hs.1 b hb') (not_lt.mp hlt)

theorem sorted_sortDesc {α β : Type} [LinearOrder β] (key : α → β)
    (l : List α) :
    List.Sorted (fun u v => key v ≤ key u) (sortDesc key l) := by
  induction l with
  | nil => simp [sortDesc]
  | cons x xs ih => exact sorted_insertDesc key x ih

theorem filter_insertDesc {α β : Type} [LinearOrder β] (key : α → β) (x : α)
    (q : β) : ∀ l : List α,
    (insertDesc key x l).filter (fun a => key a = q) =
      if key x = q then x :: l.filter (fun a => key a = q)
      else l.filter (fun a => key a = q)
  | [] => by
    rw [insertDesc]
    by_cases hx : key x = q <;> simp [List.filter_cons, hx]
  | y :: ys => by
    by_cases hlt : key x < key y
    · rw [insertDesc, if_pos hlt, List.filter_cons, filter_insertDesc key x q ys]
      by_cases hy : key y = q <;> by_cases hx : key x = q
      · exact absurd (hx.trans hy.symm) (ne_of_lt hlt)
      · simp [hy, hx, List.filter_cons]
      · simp [hy, hx, List.filter_cons]
      · simp [hy, hx, List.filter_cons]
    · rw [insertDesc, if_neg hlt]
      by_cases hx : key x = q <;> simp [hx, List.filter_cons]

theorem filter_sortDesc {α β : Type} [LinearOrder β] (key : α → β) (q : β)
    (l : List α) :
    (sortDesc key l).filter (fun a => key a = q) =
      l.filter (fun a => key a = q) := by
  induction l with
  | nil => rfl
  | cons x xs ih =>
    show (insertDesc key x (sortDesc key xs)).filter (fun a => key a = q) = _
    rw [filter_insertDesc key x q (sortDesc key xs), ih, List.filter_cons]
    by_cases hx : key x = q <;> simp [hx]

/-- C7: the final ranked list has exactly the deduplicated input's length, is
sorted by score in descending order, the sort is stable (for every score
value, the sublist of entries carrying it equals the one of the
processing-order list), and for a non-empty input the ranked list is the
payload of the stream's final event. -/
theorem ranked_output_contract (cands : List Street)
    (lookup : Street → AmenityMap) (w : WeightVector)
    (hw : ∀ p ∈ w, (dictGet AMENITY_WEIGHTS p.1).isSome = true) :
    (rankedList (dedup cands) lookup w).length = (dedup cands).length ∧
    List.Sorted (fun u v => Scored.score v ≤ Scored.score u)
      (rankedList (dedup cands) lookup w) ∧
    (∀ q : ℝ, (rankedList (dedup cands) lookup w).filter
        (fun x => Scored.score x = q) =
      (scoredList (dedup cands) lookup w).filter
        (fun x => Scored.score x = q)) ∧
    (dedup cands ≠ [] → (event_stream (dedup cands) lookup w).getLast? =
      some (Event.streetsEv (rankedList (dedup cands) lookup w))) := by
  refine ⟨?_, ?_, ?_, ?_⟩
  · rw [rankedList, length_sortDesc, scoredList, List.length_map]
  · exact sorted_sortDesc Scored.score (scoredList (dedup cands) lookup w)
  · intro q
    exact filter_sortDesc Scored.score q (scoredList (dedup cands) lookup w)
  · intro hne
    exact event_stream_last (dedup cands) lookup w hne

/-- Witness for ranked_output_contract on a one-street list with empty
request weights. -/
theorem ranked_output_contract_witness :
    (∀ p ∈ ([] : WeightVector), (dictGet AMENITY_WEIGHTS p.1).isSome = true) ∧
    ((rankedList (dedup [(⟨"a", 0, 0⟩ : Street)]) (fun _ => []) []).length =
      (dedup [(⟨"a", 0, 0⟩ : Street)]).length ∧
    List.Sorted (fun u v => Scored.score v ≤ Scored.score u)
      (rankedList (dedup [(⟨"a", 0, 0⟩ : Street)]) (fun _ => []) []) ∧
    (∀ q : ℝ, (rankedList (dedup [(⟨"a", 0, 0⟩ : Street)])
        (fun _ => []) []).filter (fun x => Scored.score x = q) =
      (scoredList (dedup [(⟨"a", 0, 0⟩ : Street)]) (fun _ => []) []).filter
        (fun x => Scored.score x = q)) ∧
    (dedup [(⟨"a", 0, 0⟩ : Street)] ≠ [] →
      (event_stream (dedup [(⟨"a", 0, 0⟩ : Street)]) (fun _ => []) []).getLast? =
      some (Event.streetsEv
        (rankedList (dedup [(⟨"a", 0, 0⟩ : Street)]) (fun _ => []) [])))) :=
  ⟨by simp, ranked_output_contract [⟨"a", 0, 0⟩] (fun _ => []) [] (by simp)⟩

end GeoRank
